import Mathlib

/-!
Verification of the module-lifecycle and event-bus subsystem of the
Everly backend (app/core/module_manager.py, app/core/event_bus.py,
app/core/dependency_injector.py, app/core/base_module.py).

Python dictionaries are modelled as insertion-ordered association lists,
Python sets as duplicate-free lists, raised exceptions as `Except` errors.
The recursive depth-first `visit` of
`ModuleManager._get_initialization_order` is modelled with an explicit
fuel argument; fuel exhaustion is a distinguished outcome
(`SortError.out_of_fuel`) that is proved unreachable for the fuel the
entry point supplies.
-/

namespace Everly

/-- Lookup in a Python dict modelled as an insertion-ordered association
list (`dict.get`): first pair whose key matches. -/
def dict_get {α : Type} : List (String × α) → String → Option α
| [], _ => none
| p :: rest, k => if p.1 = k then some p.2 else dict_get rest k

/-- Assignment `d[k] = v` on a Python dict: overwrite in place if the key
is present (association lists built only through `dict_set` have unique
keys, as Python dict keys do), otherwise append at the end. -/
def dict_set {α : Type} : List (String × α) → String → α → List (String × α)
| [], k, v => [(k, v)]
| p :: rest, k, v => if p.1 = k then (k, v) :: rest else p :: dict_set rest k v

theorem dict_get_set_self {α : Type} (d : List (String × α)) (k : String) (v : α) :
    dict_get (dict_set d k v) k = some v := by
  induction d with
  | nil => simp [dict_set, dict_get]
  | cons p rest ih =>
    by_cases h : p.1 = k
    · simp [dict_set, h, dict_get]
    · simp [dict_set, h, dict_get, ih]

theorem dict_get_set_ne {α : Type} (d : List (String × α)) (k k' : String) (v : α)
    (h : k' ≠ k) : dict_get (dict_set d k v) k' = dict_get d k' := by
  induction d with
  | nil => simp [dict_set, dict_get, Ne.symm h]
  | cons p rest ih =>
    by_cases hp : p.1 = k
    · subst hp
      simp [dict_set, dict_get, Ne.symm h]
    · by_cases hp' : p.1 = k'
      · simp [dict_set, hp, dict_get, hp', h]
      · simp [dict_set, hp, dict_get, hp', ih]

deriving instance DecidableEq for Except

/-- A feature module as registered with the `ModuleManager`
(app/core/base_module.py, class `BaseModule`).  The abstract
`initialize` / `cleanup` / `health_check` bodies of a concrete module
are represented by their observable outcome: normal return (`.ok`) or a
raised exception carrying its message (`.error`).  A health-check result
is the returned dict (string keys and values, which is all
`health_check_all` inspects). -/
structure PyModule where
  name : String
  version : String
  description : String
  dependencies : List String
  is_init : Bool
  init_behavior : Except String Unit
  cleanup_behavior : Except String Unit
  health_behavior : Except String (List (String × String))
deriving DecidableEq

/-- `self.modules[name]` lookup (the manager's dict maps `module.name`
to the module, so lookup by key is lookup by name). -/
def find_module (mods : List PyModule) (n : String) : Option PyModule :=
  mods.find? (fun m => m.name = n)

/-- The dependency edges of the registered modules: `(a, b)` means the
module named `a` declares `b` in its `dependencies` list. -/
def edges (mods : List PyModule) : List (String × String) :=
  mods.foldr (fun m acc => (m.dependencies.map (fun d => (m.name, d))) ++ acc) []

/-- `dep_edge mods a b`: module `a` depends on module `b`. -/
def dep_edge (mods : List PyModule) (a b : String) : Prop :=
  (a, b) ∈ edges mods

instance (mods : List PyModule) (a b : String) : Decidable (dep_edge mods a b) := by
  unfold dep_edge; infer_instance

theorem dep_edge_iff (mods : List PyModule) (a b : String) :
    dep_edge mods a b ↔ ∃ m ∈ mods, m.name = a ∧ b ∈ m.dependencies := by
  unfold dep_edge edges
  induction mods with
  | nil => simp
  | cons m rest ih =>
    simp only [List.foldr_cons, List.mem_append, List.mem_map, ih, List.mem_cons]
    constructor
    · rintro (⟨d, hd, he⟩ | ⟨m', hm', hn, hb⟩)
      · injection he with h1 h2
        subst h2
        exact ⟨m, Or.inl rfl, h1, hd⟩
      · exact ⟨m', Or.inr hm', hn, hb⟩
    · rintro ⟨m', rfl | hm', hn, hb⟩
      · exact Or.inl ⟨b, hb, by rw [hn]⟩
      · exact Or.inr ⟨m', hm', hn, hb⟩

/-- The dependency graph of the registered modules is acyclic (no module
reaches itself through one or more dependency edges). -/
def acyclic (mods : List PyModule) : Prop :=
  ∀ n, ¬ Relation.TransGen (dep_edge mods) n n

/-- Every declared dependency name resolves to a registered module. -/
def deps_registered (mods : List PyModule) : Prop :=
  ∀ m ∈ mods, ∀ d ∈ m.dependencies, d ∈ mods.map (fun x => x.name)

instance (mods : List PyModule) : Decidable (deps_registered mods) := by
  unfold deps_registered; infer_instance

/-- `ord` is a valid initialization order for `mods`: it lists exactly
the registered module names, without repetition, and every dependency
comes strictly before its dependent. -/
def valid_init_order (mods : List PyModule) (ord : List String) : Prop :=
  ord.Nodup ∧
  (∀ n ∈ ord, n ∈ mods.map (fun x => x.name)) ∧
  (∀ n ∈ mods.map (fun x => x.name), n ∈ ord) ∧
  (∀ p ∈ edges mods, ord.indexOf p.2 < ord.indexOf p.1)

instance (mods : List PyModule) (ord : List String) :
    Decidable (valid_init_order mods ord) := by
  unfold valid_init_order; infer_instance

/-- Outcome of the topological sort
(`ModuleManager._get_initialization_order`): the `ValueError` raised on
a circular dependency, the `KeyError` from `self.modules[module_name]`
on an unregistered name, or exhaustion of the recursion fuel of the
model (proved unreachable below for the supplied fuel). -/
inductive SortError where
| cycle (n : String)
| key_err (n : String)
| out_of_fuel
deriving DecidableEq

/-- State of the recursive `visit` closure: the `visited` set, the
`temp_visited` set (a stack: names are pushed on entry and removed on
exit, so it is kept as a list with the newest name first), and the
accumulated `order` list. -/
structure VisitSt where
  visited : List String
  temp : List String
  order : List String
deriving DecidableEq

/-- One recursion level of the `visit` closure of
`_get_initialization_order`, run over a list of names (the loop
`for dependency in module.dependencies: visit(dependency)`, and a single
name as a singleton list).  `deeper` performs the recursive `visit` calls
one level down.  Mirrors the Python body exactly: raise on a
`temp_visited` hit, skip a `visited` name, otherwise push onto
`temp_visited`, recurse over the module's dependencies, then pop, mark
visited and append to `order`. -/
def visit_step (mods : List PyModule)
    (deeper : List String → VisitSt → Except SortError VisitSt) :
    List String → VisitSt → Except SortError VisitSt
| [], st => .ok st
| n :: rest, st =>
  if n ∈ st.temp then .error (.cycle n)
  else if n ∈ st.visited then visit_step mods deeper rest st
  else
    match find_module mods n with
    | none => .error (.key_err n)
    | some m =>
      match deeper m.dependencies ⟨st.visited, n :: st.temp, st.order⟩ with
      | .error e => .error e
      | .ok st1 =>
        visit_step mods deeper rest ⟨n :: st1.visited, st1.temp.erase n, st1.order ++ [n]⟩

/-- The `visit` recursion cut off at depth `fuel`: descending below depth
`fuel` yields `SortError.out_of_fuel`, an outcome of the model only,
proved unreachable for the fuel `get_initialization_order` supplies
(`top_loop_no_fuel` below). -/
def visit_fuel (mods : List PyModule) : Nat → List String → VisitSt → Except SortError VisitSt
| 0 => visit_step mods (fun _ _ => .error .out_of_fuel)
| fuel + 1 => visit_step mods (visit_fuel mods fuel)

/-- The loop `for module_name in self.modules: if module_name not in
visited: visit(module_name)` at the end of
`_get_initialization_order`. -/
def top_loop (mods : List PyModule) (fuel : Nat) :
    List String → VisitSt → Except SortError VisitSt
| [], st => .ok st
| n :: rest, st =>
  if n ∈ st.visited then top_loop mods fuel rest st
  else
    match visit_fuel mods fuel [n] st with
    | .error e => .error e
    | .ok st1 => top_loop mods fuel rest st1

/-- `ModuleManager._get_initialization_order`.  The fuel
`mods.length + 1` strictly exceeds the depth the recursion can reach
(the `temp_visited` stack only ever holds distinct registered names), as
proved below. -/
def get_initialization_order (mods : List PyModule) : Except SortError (List String) :=
  match top_loop mods (mods.length + 1) (mods.map (fun m => m.name)) ⟨[], [], []⟩ with
  | .error e => .error e
  | .ok st => .ok st.order

theorem find_module_name {mods : List PyModule} {n : String} {m : PyModule}
    (h : find_module mods n = some m) : m.name = n := by
  have := List.find?_some h
  exact of_decide_eq_true this

theorem find_module_mem {mods : List PyModule} {n : String} {m : PyModule}
    (h : find_module mods n = some m) : m ∈ mods :=
  List.mem_of_find?_eq_some h

theorem find_module_mem_names {mods : List PyModule} {n : String} {m : PyModule}
    (h : find_module mods n = some m) : n ∈ mods.map (fun x => x.name) :=
  find_module_name h ▸ List.mem_map_of_mem _ (find_module_mem h)

theorem find_module_isSome {mods : List PyModule} {n : String}
    (h : n ∈ mods.map (fun x => x.name)) : (find_module mods n).isSome := by
  rw [find_module, List.find?_isSome]
  obtain ⟨m, hm, hname⟩ := List.mem_map.mp h
  exact ⟨m, hm, by simp [hname]⟩

/-- Facts holding of every successful run of a `visit` level: the
`temp_visited` stack is restored, the `visited` set only grows, every
name on the processed list ends up visited, and every newly visited name
was not on the entry `temp_visited` stack. -/
def visit_ok_props (f : List String → VisitSt → Except SortError VisitSt) : Prop :=
  ∀ ns st st', f ns st = .ok st' →
    st'.temp = st.temp ∧
    (∀ x ∈ st.visited, x ∈ st'.visited) ∧
    (∀ n ∈ ns, n ∈ st'.visited) ∧
    (∀ x ∈ st'.visited, x ∈ st.visited ∨ x ∉ st.temp)

theorem visit_step_ok_props (mods : List PyModule)
    (deeper : List String → VisitSt → Except SortError VisitSt)
    (hd : visit_ok_props deeper) : visit_ok_props (visit_step mods deeper) := by
  intro ns st
  induction ns, st using visit_step.induct mods deeper with
  | case1 st =>
    intro st' heq
    simp only [visit_step] at heq
    cases heq
    exact ⟨rfl, fun x hx => hx, by simp, fun x hx => Or.inl hx⟩
  | case2 n rest st h1 =>
    intro st' heq
    simp [visit_step, h1] at heq
  | case3 n rest st h1 h2 ih =>
    intro st' heq
    simp only [visit_step, if_neg h1, if_pos h2] at heq
    obtain ⟨ht, hmono, hns, hnew⟩ := ih st' heq
    refine ⟨ht, hmono, ?_, hnew⟩
    intro x hx
    rcases List.mem_cons.mp hx with rfl | hx
    · exact hmono x h2
    · exact hns x hx
  | case4 n rest st h1 h2 hfind =>
    intro st' heq
    simp [visit_step, h1, h2, hfind] at heq
  | case5 n rest st h1 h2 m hfind e hde =>
    intro st' heq
    simp [visit_step, h1, h2, hfind, hde] at heq
  | case6 n rest st h1 h2 m hfind st1 hde ih =>
    intro st' heq
    simp only [visit_step, if_neg h1, if_neg h2, hfind, hde] at heq
    obtain ⟨ht, hmono, hns, hnew⟩ := ih st' heq
    obtain ⟨dt, dmono, _, dnew⟩ := hd m.dependencies _ st1 hde
    have htemp1 : st1.temp = n :: st.temp := dt
    have htemp2 : st1.temp.erase n = st.temp := by
      rw [htemp1, List.erase_cons_head]
    refine ⟨?_, ?_, ?_, ?_⟩
    · rw [ht]
      exact htemp2
    · intro x hx
      exact hmono x (List.mem_cons_of_mem _ (dmono x hx))
    · intro x hx
      rcases List.mem_cons.mp hx with rfl | hx
      · exact hmono x (List.mem_cons_self _ _)
      · exact hns x hx
    · intro x hx
      rcases hnew x hx with hx2 | hx2
      · rcases List.mem_cons.mp hx2 with rfl | hx3
        · exact Or.inr h1
        · rcases dnew x hx3 with hx4 | hx4
          · exact Or.inl hx4
          · exact Or.inr (fun hc => hx4 (List.mem_cons_of_mem _ hc))
      · rw [htemp2] at hx2
        exact Or.inr hx2

theorem visit_fuel_ok_props (mods : List PyModule) (fuel : Nat) :
    visit_ok_props (visit_fuel mods fuel) := by
  induction fuel with
  | zero =>
    exact visit_step_ok_props mods _ (fun ns st st' h => by simp at h)
  | succ fuel ih =>
    exact visit_step_ok_props mods _ ih

/-- The invariant of the `visited` / `order` accumulators of the sort:
they hold the same names, `order` is duplicate-free, all its names are
registered, and the dependencies of every ordered module appear in
`order` strictly before it. -/
def good (mods : List PyModule) (st : VisitSt) : Prop :=
  (∀ x, x ∈ st.visited ↔ x ∈ st.order) ∧
  st.order.Nodup ∧
  (∀ x ∈ st.order, x ∈ mods.map (fun m => m.name)) ∧
  (∀ a mO, find_module mods a = some mO → a ∈ st.order →
    ∀ d ∈ mO.dependencies, d ∈ st.order ∧ st.order.indexOf d < st.order.indexOf a)

theorem visit_step_good (mods : List PyModule)
    (deeper : List String → VisitSt → Except SortError VisitSt)
    (hd : visit_ok_props deeper)
    (hdg : ∀ ns st st', deeper ns st = .ok st' → good mods st → good mods st') :
    ∀ ns st st', visit_step mods deeper ns st = .ok st' → good mods st → good mods st' := by
  intro ns st
  induction ns, st using visit_step.induct mods deeper with
  | case1 st =>
    intro st' heq hg
    simp only [visit_step] at heq
    cases heq
    exact hg
  | case2 n rest st h1 =>
    intro st' heq
    simp [visit_step, h1] at heq
  | case3 n rest st h1 h2 ih =>
    intro st' heq hg
    simp only [visit_step, if_neg h1, if_pos h2] at heq
    exact ih st' heq hg
  | case4 n rest st h1 h2 hfind =>
    intro st' heq
    simp [visit_step, h1, h2, hfind] at heq
  | case5 n rest st h1 h2 m hfind e hde =>
    intro st' heq
    simp [visit_step, h1, h2, hfind, hde] at heq
  | case6 n rest st h1 h2 m hfind st1 hde ih =>
    intro st' heq hg
    simp only [visit_step, if_neg h1, if_neg h2, hfind, hde] at heq
    apply ih st' heq
    have hg1 : good mods st1 := hdg _ _ _ hde hg
    obtain ⟨i1, i2, i3, i4⟩ := hg1
    obtain ⟨dt, dmono, dns, dnew⟩ := hd m.dependencies _ st1 hde
    have hnv : n ∉ st1.visited := by
      intro hc
      rcases dnew n hc with hc2 | hc2
      · exact h2 hc2
      · exact hc2 (List.mem_cons_self _ _)
    have hno : n ∉ st1.order := fun hc => hnv ((i1 n).mpr hc)
    refine ⟨?_, ?_, ?_, ?_⟩
    · intro x
      constructor
      · intro hx
        rcases List.mem_cons.mp hx with rfl | hx
        · exact List.mem_append.mpr (Or.inr (List.mem_cons_self _ _))
        · exact List.mem_append.mpr (Or.inl ((i1 x).mp hx))
      · intro hx
        rcases List.mem_append.mp hx with hx | hx
        · exact List.mem_cons_of_mem _ ((i1 x).mpr hx)
        · have := List.mem_singleton.mp hx
          subst this
          exact List.mem_cons_self _ _
    · rw [List.nodup_append]
      refine ⟨i2, List.nodup_singleton n, ?_⟩
      intro a ha hb
      rw [List.mem_singleton.mp hb] at ha
      exact hno ha
    · intro x hx
      rcases List.mem_append.mp hx with hx | hx
      · exact i3 x hx
      · have := List.mem_singleton.mp hx
        subst this
        exact find_module_mem_names hfind
    · intro a mO hfi ha d hdep
      rcases List.mem_append.mp ha with ha | ha
      · obtain ⟨hd1, hd2⟩ := i4 a mO hfi ha d hdep
        refine ⟨List.mem_append.mpr (Or.inl hd1), ?_⟩
        rw [List.indexOf_append_of_mem hd1, List.indexOf_append_of_mem ha]
        exact hd2
      · have := List.mem_singleton.mp ha
        subst this
        rw [hfind] at hfi
        injection hfi with hfi
        subst hfi
        have hdo : d ∈ st1.order := (i1 d).mp (dns d hdep)
        refine ⟨List.mem_append.mpr (Or.inl hdo), ?_⟩
        rw [List.indexOf_append_of_mem hdo, List.indexOf_append_of_not_mem hno,
          List.indexOf_cons_self]
        simpa using List.indexOf_lt_length.mpr hdo

theorem visit_fuel_good (mods : List PyModule) (fuel : Nat) :
    ∀ ns st st', visit_fuel mods fuel ns st = .ok st' → good mods st → good mods st' := by
  induction fuel with
  | zero =>
    exact visit_step_good mods _ (fun ns st st' h => by simp at h)
      (fun ns st st' h => by simp at h)
  | succ fuel ih =>
    exact visit_step_good mods _ (visit_fuel_ok_props mods fuel) ih

/-- The fuel `visit_fuel` consumes is the depth of the `temp_visited`
stack, which only holds distinct registered names; so with fuel
exceeding the number of distinct registered names not already on the
stack, `out_of_fuel` is unreachable. -/
theorem visit_fuel_no_fuel (mods : List PyModule) : ∀ (fuel : Nat) (ns : List String)
    (st : VisitSt), st.temp.Nodup → (∀ t ∈ st.temp, t ∈ mods.map (fun m => m.name)) →
    (mods.map (fun m => m.name)).dedup.length < st.temp.length + fuel →
    visit_fuel mods fuel ns st ≠ .error .out_of_fuel := by
  intro fuel
  induction fuel with
  | zero =>
    intro ns st h1 h2 h3
    exfalso
    have hsub : st.temp ⊆ (mods.map (fun m => m.name)).dedup :=
      fun t ht => List.mem_dedup.mpr (h2 t ht)
    have hle := List.Subperm.length_le (h1.subperm hsub)
    omega
  | succ fuel ih =>
    intro ns st
    show st.temp.Nodup → _ → _ → visit_step mods (visit_fuel mods fuel) ns st ≠ _
    induction ns, st using visit_step.induct mods (visit_fuel mods fuel) with
    | case1 st =>
      intro _ _ _
      simp [visit_step]
    | case2 n rest st h1 =>
      intro _ _ _
      simp [visit_step, h1]
    | case3 n rest st h1 h2 ihs =>
      intro ha hb hc
      simp only [visit_step, if_neg h1, if_pos h2]
      exact ihs ha hb hc
    | case4 n rest st h1 h2 hfind =>
      intro _ _ _
      simp [visit_step, h1, h2, hfind]
    | case5 n rest st h1 h2 m hfind e hde =>
      intro ha hb hc
      simp only [visit_step, if_neg h1, if_neg h2, hfind, hde]
      intro hcon
      injection hcon with hcon
      subst hcon
      refine ih m.dependencies ⟨st.visited, n :: st.temp, st.order⟩ ?_ ?_ ?_ hde
      · exact List.Nodup.cons h1 ha
      · intro t ht
        rcases List.mem_cons.mp ht with rfl | ht
        · exact find_module_mem_names hfind
        · exact hb t ht
      · have hlen : (⟨st.visited, n :: st.temp, st.order⟩ : VisitSt).temp.length
            = st.temp.length + 1 := by simp
        rw [hlen]
        omega
    | case6 n rest st h1 h2 m hfind st1 hde ihs =>
      intro ha hb hc
      simp only [visit_step, if_neg h1, if_neg h2, hfind, hde]
      obtain ⟨dt, _, _, _⟩ := visit_fuel_ok_props mods fuel m.dependencies _ st1 hde
      have htemp : st1.temp.erase n = st.temp := by
        rw [show st1.temp = n :: st.temp from dt, List.erase_cons_head]
      apply ihs
      · simpa [htemp] using ha
      · simpa [htemp] using hb
      · simpa [htemp] using hc

/-- With every declared dependency registered, a `KeyError`
(`self.modules[module_name]` miss) is unreachable for visits that start
from registered names. -/
theorem visit_fuel_no_key (mods : List PyModule) (hreg : deps_registered mods) :
    ∀ (fuel : Nat) (ns : List String) (st : VisitSt),
    (∀ n ∈ ns, n ∈ mods.map (fun m => m.name)) →
    ∀ x, visit_fuel mods fuel ns st ≠ .error (.key_err x) := by
  intro fuel
  induction fuel with
  | zero =>
    intro ns st
    show _ → ∀ x, visit_step mods (fun _ _ => .error .out_of_fuel) ns st ≠ _
    induction ns, st using visit_step.induct mods (fun _ _ => .error .out_of_fuel) with
    | case1 st => intro _ x; simp [visit_step]
    | case2 n rest st h1 => intro _ x; simp [visit_step, h1]
    | case3 n rest st h1 h2 ihs =>
      intro ha x
      simp only [visit_step, if_neg h1, if_pos h2]
      exact ihs (fun y hy => ha y (List.mem_cons_of_mem _ hy)) x
    | case4 n rest st h1 h2 hfind =>
      intro ha x
      exfalso
      have := find_module_isSome (ha n (List.mem_cons_self _ _))
      rw [hfind] at this
      simp at this
    | case5 n rest st h1 h2 m hfind e hde =>
      intro ha x
      simp only [visit_step, if_neg h1, if_neg h2, hfind, hde]
      injection hde with hde
      subst hde
      simp
    | case6 n rest st h1 h2 m hfind st1 hde ihs =>
      intro ha x
      simp at hde
  | succ fuel ih =>
    intro ns st
    show _ → ∀ x, visit_step mods (visit_fuel mods fuel) ns st ≠ _
    induction ns, st using visit_step.induct mods (visit_fuel mods fuel) with
    | case1 st => intro _ x; simp [visit_step]
    | case2 n rest st h1 => intro _ x; simp [visit_step, h1]
    | case3 n rest st h1 h2 ihs =>
      intro ha x
      simp only [visit_step, if_neg h1, if_pos h2]
      exact ihs (fun y hy => ha y (List.mem_cons_of_mem _ hy)) x
    | case4 n rest st h1 h2 hfind =>
      intro ha x
      exfalso
      have := find_module_isSome (ha n (List.mem_cons_self _ _))
      rw [hfind] at this
      simp at this
    | case5 n rest st h1 h2 m hfind e hde =>
      intro ha x
      simp only [visit_step, if_neg h1, if_neg h2, hfind, hde]
      intro hcon
      injection hcon with hcon
      subst hcon
      have hdeps : ∀ d ∈ m.dependencies, d ∈ mods.map (fun y => y.name) :=
        hreg m (find_module_mem hfind)
      exact ih m.dependencies _ hdeps x hde
    | case6 n rest st h1 h2 m hfind st1 hde ihs =>
      intro ha x
      simp only [visit_step, if_neg h1, if_neg h2, hfind, hde]
      exact ihs (fun y hy => ha y (List.mem_cons_of_mem _ hy)) x

/-- Invariant of the `temp_visited` stack (newest name first): each name
on the stack is a declared dependency of the one below it. -/
def temp_chain (mods : List PyModule) (l : List String) : Prop :=
  List.Chain' (fun a b => dep_edge mods b a) l

/-- Every name of the list being visited is a declared dependency of the
top of the `temp_visited` stack (trivially true for an empty stack, as at
the top-level loop). -/
def linked_head (mods : List PyModule) (ns : List String) : List String → Prop
| [] => True
| t :: _ => ∀ n ∈ ns, dep_edge mods t n

theorem reach_head (mods : List PyModule) : ∀ (t : String) (ts : List String) (n : String),
    List.Chain' (fun a b => dep_edge mods b a) (t :: ts) → n ∈ t :: ts →
    Relation.ReflTransGen (dep_edge mods) n t := by
  intro t ts
  induction ts generalizing t with
  | nil =>
    intro n _ hm
    have : n = t := by simpa using hm
    subst this
    exact Relation.ReflTransGen.refl
  | cons t' ts ih =>
    intro n hc hm
    rw [List.chain'_cons] at hc
    obtain ⟨hab, hc'⟩ := hc
    rcases List.mem_cons.mp hm with rfl | hm'
    · exact Relation.ReflTransGen.refl
    · exact Relation.ReflTransGen.tail (ih t' n hc' hm') hab

theorem visit_step_cycle (mods : List PyModule)
    (deeper : List String → VisitSt → Except SortError VisitSt)
    (hd : visit_ok_props deeper)
    (hdc : ∀ ns st x, temp_chain mods st.temp → linked_head mods ns st.temp →
      deeper ns st = .error (.cycle x) → Relation.TransGen (dep_edge mods) x x) :
    ∀ ns st x, temp_chain mods st.temp → linked_head mods ns st.temp →
      visit_step mods deeper ns st = .error (.cycle x) →
      Relation.TransGen (dep_edge mods) x x := by
  intro ns st
  induction ns, st using visit_step.induct mods deeper with
  | case1 st =>
    intro x _ _ heq
    simp [visit_step] at heq
  | case2 n rest st h1 =>
    intro x hchain hlink heq
    simp only [visit_step, if_pos h1] at heq
    injection heq with heq
    injection heq with heq
    subst heq
    cases htemp : st.temp with
    | nil =>
      rw [htemp] at h1
      simp at h1
    | cons t ts =>
      rw [htemp] at hchain hlink h1
      have hedge : dep_edge mods t n := hlink n (List.mem_cons_self _ _)
      exact Relation.TransGen.tail' (reach_head mods t ts n hchain h1) hedge
  | case3 n rest st h1 h2 ih =>
    intro x hchain hlink heq
    simp only [visit_step, if_neg h1, if_pos h2] at heq
    apply ih x hchain _ heq
    cases htemp : st.temp with
    | nil => simp [linked_head]
    | cons t ts =>
      rw [htemp] at hlink
      exact fun y hy => hlink y (List.mem_cons_of_mem _ hy)
  | case4 n rest st h1 h2 hfind =>
    intro x _ _ heq
    simp [visit_step, h1, h2, hfind] at heq
  | case5 n rest st h1 h2 m hfind e hde =>
    intro x hchain hlink heq
    simp only [visit_step, if_neg h1, if_neg h2, hfind, hde] at heq
    injection heq with heq
    subst heq
    apply hdc m.dependencies ⟨st.visited, n :: st.temp, st.order⟩ x _ _ hde
    · show List.Chain' _ (n :: st.temp)
      cases htemp : st.temp with
      | nil => simp
      | cons t ts =>
        rw [htemp] at hchain hlink
        rw [List.chain'_cons]
        exact ⟨hlink n (List.mem_cons_self _ _), hchain⟩
    · show ∀ d ∈ m.dependencies, dep_edge mods n d
      intro d hdep
      exact (dep_edge_iff mods n d).mpr ⟨m, find_module_mem hfind, find_module_name hfind, hdep⟩
  | case6 n rest st h1 h2 m hfind st1 hde ih =>
    intro x hchain hlink heq
    simp only [visit_step, if_neg h1, if_neg h2, hfind, hde] at heq
    obtain ⟨dt, _, _, _⟩ := hd m.dependencies _ st1 hde
    have htemp : st1.temp.erase n = st.temp := by
      rw [show st1.temp = n :: st.temp from dt, List.erase_cons_head]
    apply ih x _ _ heq
    · show temp_chain mods (st1.temp.erase n)
      rw [htemp]
      exact hchain
    · show linked_head mods rest (st1.temp.erase n)
      rw [htemp]
      cases htemp2 : st.temp with
      | nil => simp [linked_head]
      | cons t ts =>
        rw [htemp2] at hlink
        exact fun y hy => hlink y (List.mem_cons_of_mem _ hy)

theorem visit_fuel_cycle (mods : List PyModule) (fuel : Nat) :
    ∀ ns st x, temp_chain mods st.temp → linked_head mods ns st.temp →
      visit_fuel mods fuel ns st = .error (.cycle x) →
      Relation.TransGen (dep_edge mods) x x := by
  induction fuel with
  | zero =>
    exact visit_step_cycle mods _ (fun ns st st' h => by simp at h)
      (fun ns st x _ _ h => by simp at h)
  | succ fuel ih =>
    exact visit_step_cycle mods _ (visit_fuel_ok_props mods fuel) ih

theorem top_loop_ok_props (mods : List PyModule) (fuel : Nat) :
    ∀ ns st st', top_loop mods fuel ns st = .ok st' →
      st'.temp = st.temp ∧
      (∀ x ∈ st.visited, x ∈ st'.visited) ∧
      (∀ n ∈ ns, n ∈ st'.visited) ∧
      (good mods st → good mods st') := by
  intro ns
  induction ns with
  | nil =>
    intro st st' heq
    simp only [top_loop] at heq
    cases heq
    exact ⟨rfl, fun x hx => hx, by simp, fun h => h⟩
  | cons n rest ih =>
    intro st st' heq
    simp only [top_loop] at heq
    by_cases h2 : n ∈ st.visited
    · rw [if_pos h2] at heq
      obtain ⟨ht, hmono, hns, hg⟩ := ih st st' heq
      refine ⟨ht, hmono, ?_, hg⟩
      intro y hy
      rcases List.mem_cons.mp hy with rfl | hy
      · exact hmono y h2
      · exact hns y hy
    · rw [if_neg h2] at heq
      split at heq
      · simp at heq
      · rename_i st1 hv
        obtain ⟨vt, vmono, vns, _⟩ := visit_fuel_ok_props mods fuel [n] st st1 hv
        obtain ⟨ht, hmono, hns, hg⟩ := ih st1 st' heq
        refine ⟨ht.trans vt, ?_, ?_, ?_⟩
        · exact fun x hx => hmono x (vmono x hx)
        · intro y hy
          rcases List.mem_cons.mp hy with rfl | hy
          · exact hmono y (vns y (List.mem_singleton.mpr rfl))
          · exact hns y hy
        · exact fun h => hg (visit_fuel_good mods fuel [n] st st1 hv h)

theorem top_loop_no_fuel (mods : List PyModule) (fuel : Nat) :
    ∀ ns st, st.temp.Nodup → (∀ t ∈ st.temp, t ∈ mods.map (fun m => m.name)) →
      (mods.map (fun m => m.name)).dedup.length < st.temp.length + fuel →
      top_loop mods fuel ns st ≠ .error .out_of_fuel := by
  intro ns
  induction ns with
  | nil =>
    intro st _ _ _
    simp [top_loop]
  | cons n rest ih =>
    intro st h1 h2 h3
    simp only [top_loop]
    by_cases hv : n ∈ st.visited
    · rw [if_pos hv]
      exact ih st h1 h2 h3
    · rw [if_neg hv]
      split
      · rename_i e he
        intro hcon
        injection hcon with hcon
        subst hcon
        exact visit_fuel_no_fuel mods fuel [n] st h1 h2 h3 he
      · rename_i st1 he
        obtain ⟨vt, _, _, _⟩ := visit_fuel_ok_props mods fuel [n] st st1 he
        apply ih st1
        · rw [vt]; exact h1
        · rw [vt]; exact h2
        · rw [vt]; exact h3

theorem top_loop_no_key (mods : List PyModule) (hreg : deps_registered mods) (fuel : Nat) :
    ∀ ns st, (∀ n ∈ ns, n ∈ mods.map (fun m => m.name)) →
      ∀ x, top_loop mods fuel ns st ≠ .error (.key_err x) := by
  intro ns
  induction ns with
  | nil =>
    intro st _ x
    simp [top_loop]
  | cons n rest ih =>
    intro st ha x
    simp only [top_loop]
    by_cases hv : n ∈ st.visited
    · rw [if_pos hv]
      exact ih st (fun y hy => ha y (List.mem_cons_of_mem _ hy)) x
    · rw [if_neg hv]
      split
      · rename_i e he
        intro hcon
        injection hcon with hcon
        subst hcon
        refine visit_fuel_no_key mods hreg fuel [n] st ?_ x he
        intro y hy
        rw [List.mem_singleton.mp hy]
        exact ha n (List.mem_cons_self _ _)
      · rename_i st1 he
        exact ih st1 (fun y hy => ha y (List.mem_cons_of_mem _ hy)) x

theorem top_loop_cycle (mods : List PyModule) (fuel : Nat) :
    ∀ ns st x, st.temp = [] → top_loop mods fuel ns st = .error (.cycle x) →
      Relation.TransGen (dep_edge mods) x x := by
  intro ns
  induction ns with
  | nil =>
    intro st x _ heq
    simp [top_loop] at heq
  | cons n rest ih =>
    intro st x htemp heq
    simp only [top_loop] at heq
    by_cases hv : n ∈ st.visited
    · rw [if_pos hv] at heq
      exact ih st x htemp heq
    · rw [if_neg hv] at heq
      split at heq
      · rename_i e he
        injection heq with heq
        subst heq
        refine visit_fuel_cycle mods fuel [n] st x ?_ ?_ he
        · rw [htemp]
          simp [temp_chain]
        · rw [htemp]
          simp [linked_head]
      · rename_i st1 he
        obtain ⟨vt, _, _, _⟩ := visit_fuel_ok_props mods fuel [n] st st1 he
        exact ih st1 x (vt.trans htemp) heq

theorem find_module_eq_of_mem {mods : List PyModule} {m : PyModule}
    (hnodup : (mods.map (fun x => x.name)).Nodup) (hm : m ∈ mods) :
    find_module mods m.name = some m := by
  induction mods with
  | nil => simp at hm
  | cons h t ih =>
    rw [List.map_cons, List.nodup_cons] at hnodup
    rcases List.mem_cons.mp hm with rfl | hm'
    · rw [find_module, List.find?_cons_of_pos]
      simp
    · rw [find_module, List.find?_cons_of_neg, ← find_module]
      · exact ih hnodup.2 hm'
      · have : m.name ∈ t.map (fun x => x.name) := List.mem_map_of_mem _ hm'
        simp only [decide_eq_true_eq]
        intro hc
        rw [← hc] at this
        exact hnodup.1 this

/-- Whenever `_get_initialization_order` returns an order at all (and the
registered names are distinct, as the manager's dict guarantees), that
order is a valid topological initialization order. -/
theorem get_initialization_order_valid {mods : List PyModule} {ord : List String}
    (hnodup : (mods.map (fun x => x.name)).Nodup)
    (hok : get_initialization_order mods = .ok ord) : valid_init_order mods ord := by
  rw [get_initialization_order] at hok
  split at hok
  · simp at hok
  · rename_i st hst
    injection hok with hok
    subst hok
    obtain ⟨_, _, hns, hg⟩ := top_loop_ok_props mods (mods.length + 1) _ _ _ hst
    have hgood : good mods st := by
      apply hg
      refine ⟨by simp, List.nodup_nil, by simp, by simp⟩
    obtain ⟨i1, i2, i3, i4⟩ := hgood
    refine ⟨i2, i3, ?_, ?_⟩
    · intro n hn
      exact (i1 n).mp (hns n hn)
    · intro p hp
      have hedge : dep_edge mods p.1 p.2 := hp
      obtain ⟨m, hm, hname, hdep⟩ := (dep_edge_iff mods p.1 p.2).mp hedge
      have hfind : find_module mods p.1 = some m := by
        rw [← hname]
        exact find_module_eq_of_mem hnodup hm
      have hp1 : p.1 ∈ st.order := (i1 p.1).mp (hns p.1 (hname ▸ List.mem_map_of_mem _ hm))
      exact (i4 p.1 m hfind hp1 p.2 hdep).2

/-- With all dependencies registered and an acyclic dependency graph,
`_get_initialization_order` succeeds. -/
theorem get_initialization_order_ok_of_acyclic {mods : List PyModule}
    (hreg : deps_registered mods) (hacyc : acyclic mods) :
    ∃ ord, get_initialization_order mods = .ok ord := by
  rw [get_initialization_order]
  cases hres : top_loop mods (mods.length + 1) (mods.map (fun m => m.name)) ⟨[], [], []⟩ with
  | ok st => exact ⟨st.order, rfl⟩
  | error e =>
    exfalso
    cases e with
    | cycle x =>
      exact hacyc x (top_loop_cycle mods _ _ _ x rfl hres)
    | key_err x =>
      exact top_loop_no_key mods hreg _ _ _ (fun y hy => hy) x hres
    | out_of_fuel =>
      refine top_loop_no_fuel mods (mods.length + 1) _ _ (by simp) (by simp) ?_ hres
      have h1 : (mods.map (fun m => m.name)).dedup.length ≤ (mods.map (fun m => m.name)).length :=
        List.Sublist.length_le (List.dedup_sublist _)
      rw [List.length_map] at h1
      simp only [List.length_nil]
      omega

theorem transgen_lt {α : Type} {r : α → α → Prop} {f : α → Nat}
    (hf : ∀ a b, r a b → f b < f a) {a b : α} (h : Relation.TransGen r a b) : f b < f a := by
  induction h with
  | single h1 => exact hf _ _ h1
  | tail h1 h2 ih => exact lt_trans (hf _ _ h2) ih

/-- With all dependencies registered and distinct names, a dependency
cycle makes `_get_initialization_order` raise the circular-dependency
`ValueError`, and the module it names really lies on a cycle. -/
theorem get_initialization_order_cycle {mods : List PyModule}
    (hreg : deps_registered mods) (hnodup : (mods.map (fun x => x.name)).Nodup)
    (hcyc : ∃ n, Relation.TransGen (dep_edge mods) n n) :
    ∃ x, get_initialization_order mods = .error (.cycle x) ∧
      Relation.TransGen (dep_edge mods) x x := by
  cases hres : top_loop mods (mods.length + 1) (mods.map (fun m => m.name)) ⟨[], [], []⟩ with
  | ok st =>
    exfalso
    have hok : get_initialization_order mods = .ok st.order := by
      rw [get_initialization_order, hres]
    obtain ⟨n, hn⟩ := hcyc
    obtain ⟨_, _, _, hidx⟩ := get_initialization_order_valid hnodup hok
    exact absurd (@transgen_lt String (dep_edge mods) (fun s => List.indexOf s st.order)
      (fun a b hab => hidx (a, b) hab) n n hn) (lt_irrefl _)
  | error e =>
    cases e with
    | cycle x =>
      refine ⟨x, ?_, top_loop_cycle mods _ _ _ x rfl hres⟩
      rw [get_initialization_order, hres]
    | key_err x =>
      exact absurd hres (top_loop_no_key mods hreg _ _ _ (fun y hy => hy) x)
    | out_of_fuel =>
      exfalso
      refine top_loop_no_fuel mods (mods.length + 1) _ _ (by simp) (by simp) ?_ hres
      have h1 : (mods.map (fun m => m.name)).dedup.length
          ≤ (mods.map (fun m => m.name)).length :=
        List.Sublist.length_le (List.dedup_sublist _)
      rw [List.length_map] at h1
      simp only [List.length_nil]
      omega

/-- Values stored in the `DependencyContainer`
(app/core/dependency_injector.py): database handles, Redis handles,
registered module objects (identified by name) and other opaque
objects. -/
inductive ContVal where
| db_handle (id : Nat)
| redis_handle (id : Nat)
| module_obj (name : String)
| plain (s : String)
deriving DecidableEq

/-- `DependencyContainer`: two independent name-keyed namespaces,
`_services` and `_singletons`. -/
structure Container where
  services : List (String × ContVal)
  singletons : List (String × ContVal)
deriving DecidableEq

def register_service (c : Container) (n : String) (v : ContVal) : Container :=
  { c with services := dict_set c.services n v }

def register_singleton (c : Container) (n : String) (v : ContVal) : Container :=
  { c with singletons := dict_set c.singletons n v }

def get_service (c : Container) (n : String) : Option ContVal :=
  dict_get c.services n

def get_singleton (c : Container) (n : String) : Option ContVal :=
  dict_get c.singletons n

/-- `DependencyContainer.clear`: empties both namespaces. -/
def container_clear (_ : Container) : Container :=
  ⟨[], []⟩

/-- `ServiceRegistry.register_module_services`: stores the database (and,
when present, Redis) handle as singletons under the module's namespaced
keys. -/
def register_module_services (c : Container) (module_name : String) (db : ContVal)
    (redis : Option ContVal) : Container :=
  let c1 := register_singleton c (module_name ++ ".database") db
  match redis with
  | some r => register_singleton c1 (module_name ++ ".redis") r
  | none => c1

/-- `ServiceRegistry.get_module_service`: looks the namespaced key up in
the service namespace. -/
def get_module_service (c : Container) (module_name service_name : String) : Option ContVal :=
  get_service c (module_name ++ "." ++ service_name)

/-- An event (app/core/event_bus.py, dataclass `Event`); the timestamp
and metadata play no role in dispatch and are omitted. -/
structure Event where
  id : String
  event_type : String
  source_module : String
  data : List (String × String)
deriving DecidableEq

/-- A Python value as returned by an event handler.  Exception objects
are first-class Python values, so a handler can return one without
raising; `publish_and_wait` can only tell them apart from raised
exceptions through `isinstance(r, Exception)`. -/
inductive PyVal where
| exc (msg : String)
| str (s : String)
| int (n : Int)
| none_v
deriving DecidableEq

/-- `isinstance(r, Exception)`. -/
def PyVal.is_exc : PyVal → Bool
| .exc _ => true
| _ => false

/-- A subscribed handler: its `__name__` and its behavior (normal return
of a value, or a raised exception with its message).
`EventBus._call_handler` logs and re-raises, so the outcome the caller
sees is the handler's own. -/
structure Handler where
  hname : String
  run : Event → Except String PyVal

/-- A middleware: returns a transformed event, `None` to abort dispatch,
or raises. -/
def Middleware : Type :=
  Event → Except String (Option Event)

/-- The `EventBus` state: `_handlers` (event type → subscriber list) and
`_middleware`. -/
structure EventBus where
  handlers : List (String × List Handler)
  middleware : List Middleware

/-- The middleware loop shared by `EventBus.publish` and
`EventBus.publish_and_wait`: a middleware error is logged and skipped
(`continue`), leaving the event unchanged; a `None` result aborts the
dispatch; otherwise the returned event replaces the current one. -/
def apply_middleware : List Middleware → Event → Option Event
| [], e => some e
| mw :: rest, e =>
  match mw e with
  | .error _ => apply_middleware rest e
  | .ok none => none
  | .ok (some e2) => apply_middleware rest e2

/-- What `asyncio.gather(..., return_exceptions=True)` yields for one
handler: its returned value, or the raised exception as a value. -/
def gather_result (r : Except String PyVal) : PyVal :=
  match r with
  | .ok v => v
  | .error msg => .exc msg

/-- `self._handlers.get(event.event_type, [])`. -/
def handlers_for (bus : EventBus) (event_type : String) : List Handler :=
  (dict_get bus.handlers event_type).getD []

/-- `EventBus.publish_and_wait`: run the middleware chain, dispatch to
the subscribers of the (possibly transformed) event's type, gather
outcomes and return those that are not `Exception` instances.  The
function is total: every handler exception is absorbed by the gather. -/
def publish_and_wait (bus : EventBus) (ev : Event) : List PyVal :=
  match apply_middleware bus.middleware ev with
  | none => []
  | some e2 =>
    ((handlers_for bus e2.event_type).map (fun h => gather_result (h.run e2))).filter
      (fun v => !v.is_exc)

/-- The handlers (by name) that `publish_and_wait` invokes. -/
def publish_and_wait_calls (bus : EventBus) (ev : Event) : List String :=
  match apply_middleware bus.middleware ev with
  | none => []
  | some e2 => (handlers_for bus e2.event_type).map (fun h => h.hname)

/-- The handlers (by name) that `EventBus.publish` invokes (its
middleware loop and dispatch mirror `publish_and_wait`; it discards the
gathered results). -/
def publish_calls (bus : EventBus) (ev : Event) : List String :=
  match apply_middleware bus.middleware ev with
  | none => []
  | some e2 => (handlers_for bus e2.event_type).map (fun h => h.hname)

/-- The value the specification claims `publish_and_wait` returns for
the post-middleware event `e2`: the outputs of exactly those handlers
that did not raise. -/
def non_raising_results (bus : EventBus) (e2 : Event) : List PyVal :=
  (handlers_for bus e2.event_type).filterMap (fun h => (h.run e2).toOption)

/-- `EventBus.clear_subscribers()` with no event type: clears all
handlers (middleware is untouched). -/
def clear_subscribers_all (bus : EventBus) : EventBus :=
  { bus with handlers := [] }

/-- The state the `ModuleManager` orchestrates: its `modules` dict (in
registration order), the global dependency container and the global
event bus. -/
structure AppState where
  modules : List PyModule
  container : Container
  bus : EventBus

/-- `ModuleManager.register_module`: raise `ValueError` (leaving all
state untouched, since the check precedes every mutation) when the name
is taken, otherwise add the module to the dict and register the
`module.<name>` singleton. -/
def register_module (st : AppState) (m : PyModule) : Option String × AppState :=
  if st.modules.any (fun x => x.name = m.name) then
    (some ("Module " ++ m.name ++ " is already registered"), st)
  else
    (none,
      { st with
        modules := st.modules ++ [m],
        container := register_singleton st.container ("module." ++ m.name)
          (.module_obj m.name) })

/-- Errors raised out of `ModuleManager.initialize_all`: a missing
dependency (from `_check_dependencies`), the sort errors, a
`self.modules[module_name]` miss in the init loop, or a module whose
`initialize` raised (re-raised after logging). -/
inductive InitError where
| dep_missing (dep mod_name : String)
| cycle_error (n : String)
| key_error (n : String)
| fuel_error
| lookup_error (n : String)
| mod_failed (n : String) (msg : String)
deriving DecidableEq

def sort_error_to_init : SortError → InitError
| .cycle n => .cycle_error n
| .key_err n => .key_error n
| .out_of_fuel => .fuel_error

/-- The inner loop of `_check_dependencies`: first declared dependency
name not among the registered names. -/
def find_missing_dep (names : List String) : List String → Option String
| [] => none
| d :: ds => if d ∈ names then find_missing_dep names ds else some d

def check_deps_loop (names : List String) : List PyModule → Option InitError
| [] => none
| m :: rest =>
  match find_missing_dep names m.dependencies with
  | some d => some (.dep_missing d m.name)
  | none => check_deps_loop names rest

/-- `ModuleManager._check_dependencies`: raises on the first dependency
name that is not a registered module name. -/
def check_dependencies (mods : List PyModule) : Option InitError :=
  check_deps_loop (mods.map (fun m => m.name)) mods

/-- `BaseModule._base_initialize` applied through `self.modules[name]`:
the module's `initialize` runs; only on success is `_is_initialized`
set. -/
def set_initialized (mods : List PyModule) (n : String) : List PyModule :=
  mods.map (fun x => if x.name = n then { x with is_init := true } else x)

/-- The per-module loop of `initialize_all`: for each name in order,
register the module's services, run its `initialize` (recording the call
in the returned trace), set its flag on success, abort on failure
(re-raise, fail-fast).  The trace lists the modules whose `initialize`
was executed, in execution order. -/
def run_init_loop (db : ContVal) (redis : Option ContVal) :
    List String → AppState → Option InitError × AppState × List String
| [], st => (none, st, [])
| n :: rest, st =>
  match find_module st.modules n with
  | none => (some (.lookup_error n), st, [])
  | some m =>
    let st1 : AppState := { st with container := register_module_services st.container n db redis }
    match m.init_behavior with
    | .error msg => (some (.mod_failed n msg), st1, [n])
    | .ok _ =>
      let st2 : AppState := { st1 with modules := set_initialized st1.modules n }
      match run_init_loop db redis rest st2 with
      | (err, st3, tr) => (err, st3, n :: tr)

/-- `ModuleManager.initialize_all`: register the shared singletons,
validate dependencies, compute the order, then initialize in order.
Returns the raised error (if any), the final state, and the trace of
`initialize` executions. -/
def init_all (st : AppState) (db : ContVal) (redis : Option ContVal) :
    Option InitError × AppState × List String :=
  let c1 := register_singleton st.container "shared.database" db
  let c2 := match redis with
    | some r => register_singleton c1 "shared.redis" r
    | none => c1
  let st1 : AppState := { st with container := c2 }
  match check_dependencies st1.modules with
  | some e => (some e, st1, [])
  | none =>
    match get_initialization_order st1.modules with
    | .error se => (some (sort_error_to_init se), st1, [])
    | .ok ord => run_init_loop db redis ord st1

/-- `ModuleManager._cleanup_module` through `BaseModule._base_cleanup`:
the module's `cleanup` runs; on success the `initialized` flag is
cleared; a raised exception is caught and logged, leaving the flag
set. -/
def cleanup_module (m : PyModule) : PyModule :=
  match m.cleanup_behavior with
  | .ok _ => { m with is_init := false }
  | .error _ => m

/-- The task-collection loop of `cleanup_all`: the initialized modules,
in the traversal order `reversed(list(self.modules.values()))`. -/
def collect_cleanup_tasks : List PyModule → List String
| [] => []
| m :: rest =>
  if m.is_init then m.name :: collect_cleanup_tasks rest
  else collect_cleanup_tasks rest

/-- `ModuleManager.cleanup_all`: issue a cleanup for every initialized
module in reverse registration order (failures are caught per module and
cannot stop the others), then clear the dependency container and all
event subscriptions.  Returns the new state and the issuance order of
the per-module cleanups. -/
def cleanup_all (st : AppState) : AppState × List String :=
  ({ modules := st.modules.map (fun m => if m.is_init then cleanup_module m else m),
     container := container_clear st.container,
     bus := clear_subscribers_all st.bus },
   collect_cleanup_tasks st.modules.reverse)

/-- The entry `health_check_all` records for one module: the dict its
`health_check` returned, or — when `health_check` raised — the
`{"name": ..., "status": "error", "error": str(e)}` record. -/
def health_entry (m : PyModule) : List (String × String) :=
  match m.health_behavior with
  | .ok r => r
  | .error e => [("name", m.name), ("status", "error"), ("error", e)]

/-- `BaseModule.health_check`: the base record an unoverridden module
returns. -/
def base_health_result (m : PyModule) : List (String × String) :=
  [("name", m.name),
   ("status", if m.is_init then "healthy" else "not_initialized"),
   ("version", m.version)]

/-- The `health_results` dict of `health_check_all`, keyed by module
name. -/
def health_results (mods : List PyModule) : List (String × List (String × String)) :=
  List.foldl (fun d m => dict_set d m.name (health_entry m)) [] mods

/-- The overall-status loop of `health_check_all`: `"healthy"` unless
some entry's `.get("status")` differs from `"healthy"`. -/
def overall_status (results : List (String × List (String × String))) : String :=
  if results.all (fun p => dict_get p.2 "status" == some "healthy") then "healthy"
  else "degraded"

/-- `ModuleManager.health_check_all`: the overall status, the per-module
results and `total_modules`.  The function is total: a raising
`health_check` is caught per module. -/
def health_check_all (st : AppState) : String × List (String × List (String × String)) × Nat :=
  (overall_status (health_results st.modules), health_results st.modules, st.modules.length)

/-- A module's own health check reports status healthy (it returns
normally with a `"status"` entry equal to `"healthy"`). -/
def module_reports_healthy (m : PyModule) : Bool :=
  match m.health_behavior with
  | .ok r => dict_get r "status" == some "healthy"
  | .error _ => false

theorem collect_cleanup_tasks_eq (l : List PyModule) :
    collect_cleanup_tasks l = (l.filter (fun m => m.is_init)).map (fun m => m.name) := by
  induction l with
  | nil => rfl
  | cons m rest ih =>
    by_cases h : m.is_init <;> simp [collect_cleanup_tasks, h, ih, List.filter_cons]

theorem dict_set_fresh {α : Type} (d : List (String × α)) (k : String) (v : α)
    (h : ∀ p ∈ d, p.1 ≠ k) : dict_set d k v = d ++ [(k, v)] := by
  induction d with
  | nil => rfl
  | cons p rest ih =>
    rw [dict_set, if_neg (h p (List.mem_cons_self _ _)), List.cons_append,
      ih (fun q hq => h q (List.mem_cons_of_mem _ hq))]

theorem health_results_foldl (mods : List PyModule) :
    ∀ (acc : List (String × List (String × String))),
    (∀ m ∈ mods, ∀ p ∈ acc, p.1 ≠ m.name) → (mods.map (fun m => m.name)).Nodup →
    List.foldl (fun d m => dict_set d m.name (health_entry m)) acc mods
      = acc ++ mods.map (fun m => (m.name, health_entry m)) := by
  induction mods with
  | nil => intro acc _ _; simp
  | cons m rest ih =>
    intro acc hfresh hnodup
    rw [List.map_cons, List.nodup_cons] at hnodup
    rw [List.foldl_cons,
      dict_set_fresh acc m.name (health_entry m) (hfresh m (List.mem_cons_self _ _)),
      ih (acc ++ [(m.name, health_entry m)]) ?_ hnodup.2]
    · simp
    · intro m2 hm2 p hp
      rcases List.mem_append.mp hp with hp | hp
      · exact hfresh m2 (List.mem_cons_of_mem _ hm2) p hp
      · have hpe := List.mem_singleton.mp hp
        subst hpe
        intro hc
        have hc2 : m.name = m2.name := hc
        apply hnodup.1
        rw [hc2]
        exact List.mem_map_of_mem _ hm2

theorem health_results_eq (mods : List PyModule)
    (hnodup : (mods.map (fun m => m.name)).Nodup) :
    health_results mods = mods.map (fun m => (m.name, health_entry m)) := by
  rw [health_results, health_results_foldl mods [] (by simp) hnodup]
  simp

theorem health_entry_status (m : PyModule) :
    (dict_get (health_entry m) "status" == some "healthy") = module_reports_healthy m := by
  cases hb : m.health_behavior with
  | ok r => simp [health_entry, hb, module_reports_healthy]
  | error e =>
    have h1 : dict_get [("name", m.name), ("status", "error"), ("error", e)] "status"
        = some "error" := rfl
    simp [health_entry, hb, module_reports_healthy, h1]

theorem find_missing_dep_none (names : List String) (ds : List String)
    (h : ∀ d ∈ ds, d ∈ names) : find_missing_dep names ds = none := by
  induction ds with
  | nil => rfl
  | cons d rest ih =>
    rw [find_missing_dep, if_pos (h d (List.mem_cons_self _ _))]
    exact ih (fun y hy => h y (List.mem_cons_of_mem _ hy))

theorem find_missing_dep_some (names : List String) (ds : List String)
    (h : ∃ d ∈ ds, d ∉ names) : ∃ d, find_missing_dep names ds = some d ∧ d ∉ names := by
  induction ds with
  | nil => simp at h
  | cons d rest ih =>
    by_cases hd : d ∈ names
    · rw [find_missing_dep, if_pos hd]
      apply ih
      obtain ⟨d2, hd2, hd3⟩ := h
      rcases List.mem_cons.mp hd2 with rfl | hd2
      · exact absurd hd hd3
      · exact ⟨d2, hd2, hd3⟩
    · exact ⟨d, by rw [find_missing_dep, if_neg hd], hd⟩

theorem check_deps_none (mods : List PyModule) (hreg : deps_registered mods) :
    check_dependencies mods = none := by
  rw [check_dependencies]
  have : ∀ sub : List PyModule, (∀ m ∈ sub, m ∈ mods) →
      check_deps_loop (mods.map (fun m => m.name)) sub = none := by
    intro sub
    induction sub with
    | nil => intro _; rfl
    | cons m rest ih =>
      intro hsub
      rw [check_deps_loop,
        find_missing_dep_none _ _ (hreg m (hsub m (List.mem_cons_self _ _)))]
      exact ih (fun y hy => hsub y (List.mem_cons_of_mem _ hy))
  exact this mods (fun m hm => hm)

theorem check_deps_some (mods : List PyModule)
    (h : ∃ m ∈ mods, ∃ d ∈ m.dependencies, d ∉ mods.map (fun x => x.name)) :
    ∃ d mn, check_dependencies mods = some (.dep_missing d mn) := by
  rw [check_dependencies]
  have : ∀ sub : List PyModule,
      (∃ m ∈ sub, ∃ d ∈ m.dependencies, d ∉ mods.map (fun x => x.name)) →
      ∃ d mn, check_deps_loop (mods.map (fun m => m.name)) sub = some (.dep_missing d mn) := by
    intro sub
    induction sub with
    | nil => intro hc; simp at hc
    | cons m rest ih =>
      intro hc
      cases hmiss : find_missing_dep (mods.map (fun x => x.name)) m.dependencies with
      | some d => exact ⟨d, m.name, by rw [check_deps_loop, hmiss]⟩
      | none =>
        rw [check_deps_loop, hmiss]
        apply ih
        obtain ⟨m2, hm2, d2, hd2, hd3⟩ := hc
        rcases List.mem_cons.mp hm2 with rfl | hm2
        · exfalso
          obtain ⟨d3, hd4, _⟩ := find_missing_dep_some _ _ ⟨d2, hd2, hd3⟩
          rw [hmiss] at hd4
          simp at hd4
        · exact ⟨m2, hm2, d2, hd2, hd3⟩
  exact this mods h

theorem find_module_set_initialized (mods : List PyModule) (k n : String) :
    find_module (set_initialized mods k) n
      = (find_module mods n).map (fun x => if x.name = k then { x with is_init := true } else x) := by
  induction mods with
  | nil => rfl
  | cons h t ih =>
    have hname : (if h.name = k then { h with is_init := true } else h).name = h.name := by
      by_cases hc : h.name = k <;> simp [hc]
    show List.find? _ ((if h.name = k then { h with is_init := true } else h) :: set_initialized t k)
      = Option.map _ (List.find? _ (h :: t))
    by_cases hn : h.name = n
    · have hc1 : decide ((if h.name = k then { h with is_init := true } else h).name = n)
          = true := by rw [hname]; exact decide_eq_true hn
      have hc2 : decide (h.name = n) = true := decide_eq_true hn
      simp only [List.find?_cons, hc1, hc2]
      rfl
    · have hc1 : decide ((if h.name = k then { h with is_init := true } else h).name = n)
          = false := by rw [hname]; exact decide_eq_false hn
      have hc2 : decide (h.name = n) = false := decide_eq_false hn
      simp only [List.find?_cons, hc1, hc2]
      exact ih

theorem run_init_loop_ok (db : ContVal) (redis : Option ContVal) :
    ∀ (ord : List String) (st : AppState),
    (∀ n ∈ ord, ∃ m, find_module st.modules n = some m ∧ m.init_behavior = .ok ()) →
    ∃ st2, run_init_loop db redis ord st = (none, st2, ord) := by
  intro ord
  induction ord with
  | nil => intro st _; exact ⟨st, rfl⟩
  | cons n rest ih =>
    intro st h
    obtain ⟨m, hfind, hok⟩ := h n (List.mem_cons_self _ _)
    have hrest : ∀ y ∈ rest, ∃ m2,
        find_module (set_initialized st.modules n) y = some m2 ∧ m2.init_behavior = .ok () := by
      intro y hy
      obtain ⟨m2, hfind2, hok2⟩ := h y (List.mem_cons_of_mem _ hy)
      refine ⟨if m2.name = n then { m2 with is_init := true } else m2, ?_, ?_⟩
      · rw [find_module_set_initialized, hfind2]
        rfl
      · by_cases hc : m2.name = n <;> simp [hc, hok2]
    obtain ⟨st2, hrun⟩ := ih
      { st with
        container := register_module_services st.container n db redis,
        modules := set_initialized st.modules n } hrest
    refine ⟨st2, ?_⟩
    simp only [run_init_loop, hfind, hok]
    rw [show run_init_loop db redis rest
        { modules := set_initialized st.modules n,
          container := register_module_services st.container n db redis,
          bus := st.bus } = (none, st2, rest) from hrun]

theorem acyclic_of_rank (mods : List PyModule) (f : String → Nat)
    (hf : ∀ p ∈ edges mods, f p.2 < f p.1) : acyclic mods :=
  fun n hn =>
    absurd (@transgen_lt String (dep_edge mods) f (fun a b hab => hf (a, b) hab) n n hn)
      (lt_irrefl _)

theorem db_key_ne_redis_key (m : String) : m ++ ".database" ≠ m ++ ".redis" := by
  intro h
  have hd := congrArg String.data h
  simp only [String.data_append] at hd
  have := List.append_cancel_left hd
  simp at this

theorem module_service_key (m s : String) : m ++ "." ++ s = m ++ ("." ++ s) := by
  apply String.ext
  simp [String.data_append]

theorem filter_gather_eq (e2 : Event) : ∀ (hs : List Handler),
    (∀ h ∈ hs, ∀ v, h.run e2 = .ok v → v.is_exc = false) →
    ((hs.map (fun h => gather_result (h.run e2))).filter (fun v => !v.is_exc))
      = hs.filterMap (fun h => (h.run e2).toOption) := by
  intro hs
  induction hs with
  | nil => intro _; rfl
  | cons h t ih =>
    intro hno
    have hrest := fun h2 hm => hno h2 (List.mem_cons_of_mem _ hm)
    have htail := ih hrest
    cases hr : h.run e2 with
    | error msg =>
      calc (List.map (fun h2 => gather_result (h2.run e2)) (h :: t)).filter
            (fun v2 => !v2.is_exc)
          = (List.map (fun h2 => gather_result (h2.run e2)) t).filter
            (fun v2 => !v2.is_exc) := by rw [List.map_cons, hr]; rfl
        _ = List.filterMap (fun h2 => (h2.run e2).toOption) t := htail
        _ = List.filterMap (fun h2 => (h2.run e2).toOption) (h :: t) := by
            rw [List.filterMap_cons, hr]; rfl
    | ok v =>
      have hv : v.is_exc = false := hno h (List.mem_cons_self _ _) v hr
      calc (List.map (fun h2 => gather_result (h2.run e2)) (h :: t)).filter
            (fun v2 => !v2.is_exc)
          = (v :: List.map (fun h2 => gather_result (h2.run e2)) t).filter
            (fun v2 => !v2.is_exc) := by rw [List.map_cons, hr]; rfl
        _ = v :: (List.map (fun h2 => gather_result (h2.run e2)) t).filter
            (fun v2 => !v2.is_exc) := by rw [List.filter_cons]; simp [hv]
        _ = v :: List.filterMap (fun h2 => (h2.run e2).toOption) t := by rw [htail]
        _ = List.filterMap (fun h2 => (h2.run e2).toOption) (h :: t) := by
            rw [List.filterMap_cons, hr]; rfl

/-- A module whose `initialize`, `cleanup` and `health_check` behave as
the base class's (succeed; base health record), not yet initialized. -/
def mk_module (n : String) (deps : List String) : PyModule :=
  ⟨n, "1.0.0", "", deps, false, .ok (), .ok (), .ok []⟩

/-- Like `mk_module` but already initialized. -/
def mk_module_i (n : String) (deps : List String) : PyModule :=
  ⟨n, "1.0.0", "", deps, true, .ok (), .ok (), .ok []⟩

/-- An empty bus. -/
def empty_bus : EventBus :=
  ⟨[], []⟩

/-- C5: registering a module whose name equals an already-registered
module's name raises `ValueError` and leaves the whole manager state —
module dict and dependency container — exactly as it was; the existing
registration is untouched. -/
theorem claim_register_duplicate (st : AppState) (m : PyModule)
    (h : ∃ m2 ∈ st.modules, m2.name = m.name) :
    register_module st m = (some ("Module " ++ m.name ++ " is already registered"), st) := by
  obtain ⟨m2, hm2, hname⟩ := h
  have hc : st.modules.any (fun x => x.name = m.name) = true :=
    List.any_eq_true.mpr ⟨m2, hm2, by simp [hname]⟩
  simp [register_module, hc]

def c5_state : AppState :=
  ⟨[mk_module "auth" []], ⟨[], []⟩, empty_bus⟩

theorem claim_register_duplicate_witness :
    (∃ m2 ∈ c5_state.modules, m2.name = (mk_module "auth" ["users"]).name) ∧
    register_module c5_state (mk_module "auth" ["users"])
      = (some ("Module " ++ (mk_module "auth" ["users"]).name ++ " is already registered"),
          c5_state) :=
  ⟨⟨mk_module "auth" [], by simp [c5_state], by decide⟩,
    claim_register_duplicate c5_state (mk_module "auth" ["users"])
      ⟨mk_module "auth" [], by simp [c5_state], by decide⟩⟩

/-- C10: `register_module_services` stores the database and Redis
handles only in the singleton namespace (under `<m>.database` and
`<m>.redis`); the service namespace is untouched, so
`get_module_service` — which looks up the service namespace — returns
`None` for both (given no service was separately registered under those
keys, which nothing in the repository ever does), not the registered
handles. -/
theorem claim_service_singleton_namespaces (c : Container) (m : String) (db r : ContVal)
    (h1 : dict_get c.services (m ++ ".database") = none)
    (h2 : dict_get c.services (m ++ ".redis") = none) :
    (register_module_services c m db (some r)).services = c.services ∧
    get_module_service (register_module_services c m db (some r)) m "database" = none ∧
    get_module_service (register_module_services c m db (some r)) m "redis" = none ∧
    get_singleton (register_module_services c m db (some r)) (m ++ ".database") = some db ∧
    get_singleton (register_module_services c m db (some r)) (m ++ ".redis") = some r := by
  refine ⟨rfl, ?_, ?_, ?_, ?_⟩
  · show dict_get c.services (m ++ "." ++ "database") = none
    rw [module_service_key]
    exact h1
  · show dict_get c.services (m ++ "." ++ "redis") = none
    rw [module_service_key]
    exact h2
  · show dict_get (dict_set (dict_set c.singletons (m ++ ".database") db) (m ++ ".redis") r)
      (m ++ ".database") = some db
    rw [dict_get_set_ne _ _ _ _ (db_key_ne_redis_key m), dict_get_set_self]
  · show dict_get (dict_set (dict_set c.singletons (m ++ ".database") db) (m ++ ".redis") r)
      (m ++ ".redis") = some r
    rw [dict_get_set_self]

theorem claim_service_singleton_namespaces_witness :
    (dict_get (⟨[], []⟩ : Container).services ("users" ++ ".database") = none ∧
      dict_get (⟨[], []⟩ : Container).services ("users" ++ ".redis") = none) ∧
    ((register_module_services ⟨[], []⟩ "users" (.db_handle 1) (some (.redis_handle 2))).services
        = (⟨[], []⟩ : Container).services ∧
      get_module_service
        (register_module_services ⟨[], []⟩ "users" (.db_handle 1) (some (.redis_handle 2)))
        "users" "database" = none ∧
      get_module_service
        (register_module_services ⟨[], []⟩ "users" (.db_handle 1) (some (.redis_handle 2)))
        "users" "redis" = none ∧
      get_singleton
        (register_module_services ⟨[], []⟩ "users" (.db_handle 1) (some (.redis_handle 2)))
        ("users" ++ ".database") = some (.db_handle 1) ∧
      get_singleton
        (register_module_services ⟨[], []⟩ "users" (.db_handle 1) (some (.redis_handle 2)))
        ("users" ++ ".redis") = some (.redis_handle 2)) :=
  ⟨⟨rfl, rfl⟩,
    claim_service_singleton_namespaces ⟨[], []⟩ "users" (.db_handle 1) (.redis_handle 2) rfl rfl⟩

/-- C4: when some registered module declares a dependency name that no
registered module bears, `initialize_all` raises the missing-dependency
`ValueError` from `_check_dependencies` before any module's `initialize`
runs: the returned trace of `initialize` executions is empty and the
module dict (in particular every `initialized` flag) is unchanged. -/
theorem claim_missing_dep_fatal (st : AppState) (db : ContVal) (redis : Option ContVal)
    (h : ∃ m ∈ st.modules, ∃ d ∈ m.dependencies, d ∉ st.modules.map (fun x => x.name)) :
    ∃ d mn st1, init_all st db redis = (some (.dep_missing d mn), st1, []) ∧
      st1.modules = st.modules := by
  obtain ⟨d, mn, hcd⟩ := check_deps_some st.modules h
  refine ⟨d, mn,
    { st with container :=
        match redis with
        | some r => register_singleton (register_singleton st.container "shared.database" db)
            "shared.redis" r
        | none => register_singleton st.container "shared.database" db },
    ?_, rfl⟩
  simp only [init_all]
  rw [show check_dependencies
      ({ st with container :=
        match redis with
        | some r => register_singleton (register_singleton st.container "shared.database" db)
            "shared.redis" r
        | none => register_singleton st.container "shared.database" db } : AppState).modules
    = some (.dep_missing d mn) from hcd]

def c4_state : AppState :=
  ⟨[mk_module "auth" [], mk_module "users" ["auth", "profiles"]], ⟨[], []⟩, empty_bus⟩

theorem claim_missing_dep_fatal_witness :
    (∃ m ∈ c4_state.modules, ∃ d ∈ m.dependencies,
      d ∉ c4_state.modules.map (fun x => x.name)) ∧
    (∃ d mn st1, init_all c4_state (.db_handle 1) none = (some (.dep_missing d mn), st1, []) ∧
      st1.modules = c4_state.modules) :=
  ⟨by decide, claim_missing_dep_fatal c4_state (.db_handle 1) none (by decide)⟩

/-- C8: `cleanup_all` issues a cleanup for every initialized module —
one module's `cleanup` raising cannot prevent any other's, because each
`_cleanup_module` catches its own exceptions — and afterwards the
dependency container (both namespaces) and all event-bus subscriptions
are cleared; `cleanup_all` never raises (it is total). -/
theorem claim_cleanup_isolation (st : AppState) :
    (∀ m ∈ st.modules, m.is_init = true → m.name ∈ (cleanup_all st).2) ∧
    (cleanup_all st).1.container.services = [] ∧
    (cleanup_all st).1.container.singletons = [] ∧
    (cleanup_all st).1.bus.handlers = [] := by
  refine ⟨?_, rfl, rfl, rfl⟩
  intro m hm hinit
  show m.name ∈ collect_cleanup_tasks st.modules.reverse
  rw [collect_cleanup_tasks_eq]
  exact List.mem_map_of_mem _
    (List.mem_filter.mpr ⟨List.mem_reverse.mpr hm, by simp [hinit]⟩)

/-- A state with three initialized modules whose middle one fails in
`cleanup`. -/
def c8_state : AppState :=
  ⟨[mk_module_i "auth" [],
    ⟨"users", "1.0.0", "", ["auth"], true, .ok (), .error "cleanup blew up", .ok []⟩,
    mk_module_i "diaries" ["auth", "users"]],
    ⟨[("svc", .plain "s")], [("shared.database", .db_handle 1)]⟩,
    ⟨[("diary.created", [])], []⟩⟩

theorem claim_cleanup_isolation_witness :
    (∀ m ∈ c8_state.modules, m.is_init = true → m.name ∈ (cleanup_all c8_state).2) ∧
    (cleanup_all c8_state).1.container.services = [] ∧
    (cleanup_all c8_state).1.container.singletons = [] ∧
    (cleanup_all c8_state).1.bus.handlers = [] :=
  claim_cleanup_isolation c8_state

/-- C2 counterexample: with module `"a"` registered before its
dependency `"b"` (both initialized), `cleanup_all` issues the cleanups
in the order `["b", "a"]` — the reverse of the registration order — and
that order is not the reverse of any valid initialization order (the
only valid initialization order is `["b", "a"]`, whose reverse is
`["a", "b"]`). -/
def c2x_state : AppState :=
  ⟨[mk_module_i "a" ["b"], mk_module_i "b" []], ⟨[], []⟩, empty_bus⟩

theorem claim_cleanup_reverse_counterexample :
    (cleanup_all c2x_state).2 = ["b", "a"] ∧
    ¬ ∃ ord, valid_init_order c2x_state.modules ord ∧ (cleanup_all c2x_state).2 = ord.reverse := by
  refine ⟨by decide, ?_⟩
  rintro ⟨ord, hv, he⟩
  have h2 : ord = ["a", "b"] := by
    have h3 := congrArg List.reverse he
    rw [List.reverse_reverse] at h3
    rw [← h3]
    decide
  rw [h2] at hv
  exact absurd hv (by decide)

/-- C2 amended: the order in which `cleanup_all` issues module cleanups
is the reverse of the registration order restricted to initialized
modules — not, in general, the reverse of a valid initialization order.
The two coincide exactly when that restricted registration order is
itself a valid initialization order (e.g. when modules were registered
dependency-first). -/
theorem claim_cleanup_reverse_amended (st : AppState) :
    (cleanup_all st).2
      = ((st.modules.filter (fun m => m.is_init)).map (fun m => m.name)).reverse ∧
    (valid_init_order st.modules ((cleanup_all st).2.reverse) →
      ∃ ord, valid_init_order st.modules ord ∧ (cleanup_all st).2 = ord.reverse) := by
  constructor
  · show collect_cleanup_tasks st.modules.reverse = _
    rw [collect_cleanup_tasks_eq, List.filter_reverse, List.map_reverse]
  · intro h
    exact ⟨(cleanup_all st).2.reverse, h, (List.reverse_reverse _).symm⟩

/-- The well-ordered variant of `c2x_state`: the dependency `"b"` is
registered first. -/
def c2w_state : AppState :=
  ⟨[mk_module_i "b" [], mk_module_i "a" ["b"]], ⟨[], []⟩, empty_bus⟩

theorem claim_cleanup_reverse_amended_witness :
    ((cleanup_all c2w_state).2
        = ((c2w_state.modules.filter (fun m => m.is_init)).map (fun m => m.name)).reverse ∧
      valid_init_order c2w_state.modules ((cleanup_all c2w_state).2.reverse)) ∧
    (∃ ord, valid_init_order c2w_state.modules ord ∧ (cleanup_all c2w_state).2 = ord.reverse) :=
  ⟨⟨(claim_cleanup_reverse_amended c2w_state).1, by decide⟩,
    (claim_cleanup_reverse_amended c2w_state).2 (by decide)⟩

/-- C9: during `publish` and `publish_and_wait`, a middleware returning
the `None` sentinel aborts dispatch entirely — no handler is invoked and
`publish_and_wait` returns the empty list; and a middleware that raises
is skipped, the chain continuing with the event exactly as it was before
that middleware. -/
theorem claim_middleware_sentinel_and_skip :
    (∀ (bus : EventBus) (ev : Event), apply_middleware bus.middleware ev = none →
      publish_and_wait bus ev = [] ∧ publish_and_wait_calls bus ev = [] ∧
      publish_calls bus ev = []) ∧
    (∀ (mw : Middleware) (rest : List Middleware) (ev : Event) (msg : String),
      mw ev = .error msg → apply_middleware (mw :: rest) ev = apply_middleware rest ev) ∧
    (∀ (hs : List (String × List Handler)) (mw : Middleware) (rest : List Middleware)
      (ev : Event) (msg : String), mw ev = .error msg →
      publish_and_wait ⟨hs, mw :: rest⟩ ev = publish_and_wait ⟨hs, rest⟩ ev ∧
      publish_calls ⟨hs, mw :: rest⟩ ev = publish_calls ⟨hs, rest⟩ ev) := by
  refine ⟨?_, ?_, ?_⟩
  · intro bus ev h
    exact ⟨by rw [publish_and_wait, h], by rw [publish_and_wait_calls, h],
      by rw [publish_calls, h]⟩
  · intro mw rest ev msg h
    rw [apply_middleware, h]
  · intro hs mw rest ev msg h
    have hchain : apply_middleware (mw :: rest) ev = apply_middleware rest ev := by
      rw [apply_middleware, h]
    constructor
    · rw [publish_and_wait, publish_and_wait]
      rw [show (⟨hs, mw :: rest⟩ : EventBus).middleware = mw :: rest from rfl,
        show (⟨hs, rest⟩ : EventBus).middleware = rest from rfl, hchain]
      rfl
    · rw [publish_calls, publish_calls]
      rw [show (⟨hs, mw :: rest⟩ : EventBus).middleware = mw :: rest from rfl,
        show (⟨hs, rest⟩ : EventBus).middleware = rest from rfl, hchain]
      rfl

/-- A middleware that always raises, and one that always returns the
`None` sentinel. -/
def mw_raise : Middleware := fun _ => .error "middleware blew up"

def mw_sentinel : Middleware := fun _ => .ok none

def ev0 : Event :=
  ⟨"id0", "diary.created", "diaries", []⟩

def c9_handler : Handler :=
  ⟨"on_diary_created", fun _ => .ok (.str "handled")⟩

def c9_bus : EventBus :=
  ⟨[("diary.created", [c9_handler])], [mw_raise, mw_sentinel]⟩

theorem claim_middleware_sentinel_and_skip_witness :
    (apply_middleware c9_bus.middleware ev0 = none ∧ mw_raise ev0 = .error "middleware blew up") ∧
    (publish_and_wait c9_bus ev0 = [] ∧ publish_and_wait_calls c9_bus ev0 = [] ∧
      publish_calls c9_bus ev0 = []) ∧
    apply_middleware [mw_raise, mw_sentinel] ev0 = apply_middleware [mw_sentinel] ev0 :=
  ⟨⟨rfl, rfl⟩,
    claim_middleware_sentinel_and_skip.1 c9_bus ev0 rfl,
    claim_middleware_sentinel_and_skip.2.1 mw_raise [mw_sentinel] ev0 "middleware blew up" rfl⟩

/-- C6 counterexample: a handler that does not raise but returns an
Exception *instance* as its value.  `publish_and_wait` filters results
with `isinstance(r, Exception)`, which cannot distinguish a returned
exception from a raised one, so the returned list is empty — not "the
results of the handlers that did not raise", which here is the
one-element list of that returned exception object. -/
def c6x_handler : Handler :=
  ⟨"returns_exception_object", fun _ => .ok (.exc "returned, not raised")⟩

def c6x_bus : EventBus :=
  ⟨[("diary.created", [c6x_handler])], []⟩

theorem claim_publish_and_wait_counterexample :
    apply_middleware c6x_bus.middleware ev0 = some ev0 ∧
    non_raising_results c6x_bus ev0 = [PyVal.exc "returned, not raised"] ∧
    publish_and_wait c6x_bus ev0 = [] ∧
    publish_and_wait c6x_bus ev0 ≠ non_raising_results c6x_bus ev0 :=
  ⟨rfl, rfl, rfl, by decide⟩

/-- C6 amended: provided no non-raising handler returns an Exception
instance as its value (the one case `isinstance` filtering cannot tell
apart from a raised exception), `publish_and_wait` — with middleware
that does not abort the event — returns exactly the results of the
handlers that did not raise, in subscription order; a raising handler
contributes nothing, and the call always returns normally (the model is
total because the gather absorbs every handler exception). -/
theorem claim_publish_and_wait_amended (bus : EventBus) (ev e2 : Event)
    (hmw : apply_middleware bus.middleware ev = some e2)
    (hnoexc : ∀ h ∈ handlers_for bus e2.event_type, ∀ v, h.run e2 = .ok v →
      v.is_exc = false) :
    publish_and_wait bus ev = non_raising_results bus e2 := by
  rw [publish_and_wait, hmw, non_raising_results]
  exact filter_gather_eq e2 (handlers_for bus e2.event_type) hnoexc

def c6w_h1 : Handler :=
  ⟨"succeeding_handler", fun _ => .ok (.str "alpha")⟩

def c6w_h2 : Handler :=
  ⟨"raising_handler", fun _ => .error "handler blew up"⟩

def c6w_bus : EventBus :=
  ⟨[("diary.created", [c6w_h1, c6w_h2])], []⟩

theorem claim_publish_and_wait_amended_witness :
    publish_and_wait c6w_bus ev0 = non_raising_results c6w_bus ev0 ∧
    publish_and_wait c6w_bus ev0 = [PyVal.str "alpha"] :=
  ⟨claim_publish_and_wait_amended c6w_bus ev0 ev0 rfl (by
      intro h hm v hv
      have hm2 : h = c6w_h1 ∨ h = c6w_h2 := by
        have : h ∈ [c6w_h1, c6w_h2] := hm
        simpa using this
      rcases hm2 with rfl | rfl
      · injection hv with hv
        rw [← hv]
        rfl
      · exact absurd hv (by simp [c6w_h2])),
    by decide⟩

/-- C7: `health_check_all` reports overall `"healthy"` exactly when
every module's own health check reports `"healthy"`, and `"degraded"`
otherwise; a module whose `health_check` raises appears in the
per-module results as a `"status": "error"` record carrying the raised
message, every other module's entry is exactly its own `health_check`
result, and the aggregation is total (never raises). -/
theorem claim_health_check_aggregate (st : AppState)
    (hnodup : (st.modules.map (fun m => m.name)).Nodup) :
    ((health_check_all st).1 = "healthy" ↔
      ∀ m ∈ st.modules, module_reports_healthy m = true) ∧
    ((health_check_all st).1 = "healthy" ∨ (health_check_all st).1 = "degraded") ∧
    (∀ m ∈ st.modules, dict_get (health_check_all st).2.1 m.name = some (health_entry m)) ∧
    (∀ m ∈ st.modules, ∀ e, m.health_behavior = .error e →
      dict_get (health_check_all st).2.1 m.name
        = some [("name", m.name), ("status", "error"), ("error", e)]) := by
  have hres : health_results st.modules
      = st.modules.map (fun m => (m.name, health_entry m)) := health_results_eq _ hnodup
  have hall : ((health_results st.modules).all
        (fun p => dict_get p.2 "status" == some "healthy") = true)
      ↔ (∀ m ∈ st.modules, module_reports_healthy m = true) := by
    rw [hres, List.all_eq_true]
    constructor
    · intro hx m hm
      have h2 : (dict_get (health_entry m) "status" == some "healthy") = true :=
        hx (m.name, health_entry m) (List.mem_map_of_mem _ hm)
      rw [health_entry_status] at h2
      exact h2
    · intro hm p hp
      obtain ⟨m, hm2, rfl⟩ := List.mem_map.mp hp
      show (dict_get (health_entry m) "status" == some "healthy") = true
      rw [health_entry_status]
      exact hm m hm2
  have hget : ∀ m ∈ st.modules, dict_get (health_results st.modules) m.name
      = some (health_entry m) := by
    intro m hm
    have : ∀ (l : List PyModule), (l.map (fun x => x.name)).Nodup → m ∈ l →
        dict_get (l.map (fun x => (x.name, health_entry x))) m.name = some (health_entry m) := by
      intro l
      induction l with
      | nil => intro _ hc; simp at hc
      | cons x t ih =>
        intro hnd hml
        rw [List.map_cons, List.nodup_cons] at hnd
        rcases List.mem_cons.mp hml with rfl | hml
        · rw [List.map_cons, dict_get, if_pos rfl]
        · rw [List.map_cons, dict_get, if_neg ?_]
          · exact ih hnd.2 hml
          · show ¬ x.name = m.name
            intro hc
            exact hnd.1 (hc ▸ List.mem_map_of_mem _ hml)
    rw [hres]
    exact this st.modules hnodup hm
  refine ⟨?_, ?_, hget, ?_⟩
  · show overall_status (health_results st.modules) = "healthy" ↔ _
    rw [overall_status]
    constructor
    · intro hh
      by_cases hc : (health_results st.modules).all
          (fun p => dict_get p.2 "status" == some "healthy") = true
      · exact hall.mp hc
      · rw [if_neg hc] at hh
        exact absurd hh (by decide)
    · intro hm
      rw [if_pos (hall.mpr hm)]
  · show overall_status (health_results st.modules) = "healthy" ∨
      overall_status (health_results st.modules) = "degraded"
    rw [overall_status]
    by_cases hc : (health_results st.modules).all
        (fun p => dict_get p.2 "status" == some "healthy") = true
    · rw [if_pos hc]
      exact Or.inl rfl
    · rw [if_neg hc]
      exact Or.inr rfl
  · intro m hm e he
    have h2 := hget m hm
    have h3 : health_entry m = [("name", m.name), ("status", "error"), ("error", e)] := by
      rw [health_entry, he]
    show dict_get (health_results st.modules) m.name = _
    rw [h2, h3]

/-- Three modules: a healthy one, one whose `health_check` raises, and a
registered-but-uninitialized one. -/
def c7_state : AppState :=
  ⟨[mk_module_i "auth" [],
    ⟨"users", "1.0.0", "", ["auth"], true, .ok (), .ok (), .error "health check blew up"⟩,
    mk_module "media" ["auth"]],
    ⟨[], []⟩, empty_bus⟩

theorem claim_health_check_aggregate_witness :
    ((health_check_all c7_state).1 = "healthy" ↔
      ∀ m ∈ c7_state.modules, module_reports_healthy m = true) ∧
    ((health_check_all c7_state).1 = "healthy" ∨ (health_check_all c7_state).1 = "degraded") ∧
    (∀ m ∈ c7_state.modules,
      dict_get (health_check_all c7_state).2.1 m.name = some (health_entry m)) ∧
    (∀ m ∈ c7_state.modules, ∀ e, m.health_behavior = .error e →
      dict_get (health_check_all c7_state).2.1 m.name
        = some [("name", m.name), ("status", "error"), ("error", e)]) :=
  claim_health_check_aggregate c7_state (by decide)

/-- C1: with distinct registered names (as the manager's dict
guarantees), every declared dependency registered, an acyclic dependency
graph and initializations that succeed, `initialize_all` succeeds; the
trace of `initialize` executions is exactly the order
`_get_initialization_order` returned, and that order is a valid
topological order: it lists every registered module exactly once, and
for every dependency edge (A depends on B) module B appears — and hence,
initializations being sequential, completes — strictly before A
begins. -/
theorem claim_init_all_topological (st : AppState) (db : ContVal) (redis : Option ContVal)
    (hnodup : (st.modules.map (fun m => m.name)).Nodup)
    (hreg : deps_registered st.modules)
    (hacyc : acyclic st.modules)
    (hinit : ∀ m ∈ st.modules, m.init_behavior = .ok ()) :
    ∃ st2 tr, init_all st db redis = (none, st2, tr) ∧
      get_initialization_order st.modules = .ok tr ∧
      valid_init_order st.modules tr := by
  obtain ⟨ord, hord⟩ := get_initialization_order_ok_of_acyclic hreg hacyc
  have hvalid := get_initialization_order_valid hnodup hord
  have hloop : ∀ n ∈ ord, ∃ m, find_module st.modules n = some m ∧ m.init_behavior = .ok () := by
    intro n hn
    have hn2 : n ∈ st.modules.map (fun x => x.name) := hvalid.2.1 n hn
    obtain ⟨m, hm, hname⟩ := List.mem_map.mp hn2
    refine ⟨m, ?_, hinit m hm⟩
    rw [← hname]
    exact find_module_eq_of_mem hnodup hm
  obtain ⟨st2, hrun⟩ := run_init_loop_ok db redis ord
    { st with container :=
        match redis with
        | some r => register_singleton (register_singleton st.container "shared.database" db)
            "shared.redis" r
        | none => register_singleton st.container "shared.database" db } hloop
  refine ⟨st2, ord, ?_, hord, hvalid⟩
  simp only [init_all]
  rw [check_deps_none st.modules hreg, hord]
  exact hrun

/-- The four-module scenario of the specification: auth first, users and
media depending on auth, diaries depending on auth and users. -/
def c1_state : AppState :=
  ⟨[mk_module "auth" [], mk_module "users" ["auth"], mk_module "media" ["auth"],
    mk_module "diaries" ["auth", "users"]], ⟨[], []⟩, empty_bus⟩

def c1_rank : String → Nat :=
  fun n => if n = "auth" then 0 else if n = "users" then 1 else if n = "media" then 1 else 2

theorem claim_init_all_topological_witness :
    (deps_registered c1_state.modules ∧ acyclic c1_state.modules ∧
      get_initialization_order c1_state.modules
        = .ok ["auth", "users", "media", "diaries"]) ∧
    (∃ st2 tr, init_all c1_state (.db_handle 1) none = (none, st2, tr) ∧
      get_initialization_order c1_state.modules = .ok tr ∧
      valid_init_order c1_state.modules tr) :=
  ⟨⟨by decide, acyclic_of_rank _ c1_rank (by decide), by decide⟩,
    claim_init_all_topological c1_state (.db_handle 1) none (by decide) (by decide)
      (acyclic_of_rank _ c1_rank (by decide)) (by decide)⟩

/-- C3: with distinct registered names, all declared dependencies
registered, and a cycle in the dependency graph, `initialize_all` raises
the circular-dependency `ValueError` naming a module that really lies on
a dependency cycle, and it does so before any module's `initialize`
executes: the trace of `initialize` executions is empty and the module
dict — every `initialized` flag included — is unchanged. -/
theorem claim_cycle_fatal (st : AppState) (db : ContVal) (redis : Option ContVal)
    (hnodup : (st.modules.map (fun m => m.name)).Nodup)
    (hreg : deps_registered st.modules)
    (hcyc : ∃ n, Relation.TransGen (dep_edge st.modules) n n) :
    ∃ x st1, init_all st db redis = (some (.cycle_error x), st1, []) ∧
      Relation.TransGen (dep_edge st.modules) x x ∧
      st1.modules = st.modules := by
  obtain ⟨x, hx, htg⟩ := get_initialization_order_cycle hreg hnodup hcyc
  refine ⟨x,
    { st with container :=
        match redis with
        | some r => register_singleton (register_singleton st.container "shared.database" db)
            "shared.redis" r
        | none => register_singleton st.container "shared.database" db },
    ?_, htg, rfl⟩
  simp only [init_all]
  rw [check_deps_none st.modules hreg, hx]
  rfl

/-- Two modules depending on each other. -/
def c3_state : AppState :=
  ⟨[mk_module "a" ["b"], mk_module "b" ["a"]], ⟨[], []⟩, empty_bus⟩

theorem claim_cycle_fatal_witness :
    (deps_registered c3_state.modules ∧
      Relation.TransGen (dep_edge c3_state.modules) "a" "a") ∧
    (∃ x st1, init_all c3_state (.db_handle 1) none = (some (.cycle_error x), st1, []) ∧
      Relation.TransGen (dep_edge c3_state.modules) x x ∧
      st1.modules = c3_state.modules) := by
  have hab : dep_edge c3_state.modules "a" "b" := by decide
  have hba : dep_edge c3_state.modules "b" "a" := by decide
  have htg : Relation.TransGen (dep_edge c3_state.modules) "a" "a" :=
    Relation.TransGen.head hab (Relation.TransGen.single hba)
  exact ⟨⟨by decide, htg⟩,
    claim_cycle_fatal c3_state (.db_handle 1) none (by decide) (by decide) ⟨"a", htg⟩⟩

end Everly
